import Mathlib

/-!
Verification of the OmniASR backend core (audio segmentation, batch
transcription orchestration, LRU+TTL result caching, metrics) against its
natural-language specification.

The Python source is shallowly embedded:
* `LRUCache` / `TranscriptionCache` model `backend/cache.py` (the Python
  `OrderedDict` is modelled as a recency-ordered association list, first
  element least recently used, last element most recently used; wall-clock
  times are integers passed explicitly to each operation).
* `transcribe`, `transcribe_large` and the request handler
  `transcribe_large_file` model `backend/omni_modal.py`; the external
  collaborators (librosa duration, silero VAD, soundfile read, the ASR
  engine) are per-request oracles collected in an `Env` record, and Python
  floats are modelled as rationals with `round` modelled as round-half-even.
* `MetricsCollector` models `backend/monitoring.py`.
-/

/-- Round-half-even (banker's rounding) on rationals: the semantics of
Python's builtin `round` to an integer. -/
def roundHalfEven (q : ℚ) : ℤ :=
  let f := ⌊q⌋
  let frac := q - f
  if frac < 1/2 then f
  else if 1/2 < frac then f + 1
  else if f % 2 = 0 then f else f + 1

/-- Python's `round(q, n)`: round to `n` decimal places, ties to even. -/
def roundTo (n : ℕ) (q : ℚ) : ℚ :=
  (roundHalfEven (q * 10 ^ n) : ℚ) / 10 ^ n

theorem floor_le_roundHalfEven (q : ℚ) : ⌊q⌋ ≤ roundHalfEven q := by
  unfold roundHalfEven
  dsimp only
  split
  · exact le_refl _
  · split
    · omega
    · split <;> omega

theorem roundHalfEven_le_floor_add_one (q : ℚ) : roundHalfEven q ≤ ⌊q⌋ + 1 := by
  unfold roundHalfEven
  dsimp only
  split
  · omega
  · split
    · omega
    · split <;> omega

/-- adding an integer `k ≥ 2` to the argument strictly increases the
round-half-even value. -/
theorem roundHalfEven_lt_of_add_two {x y : ℚ} (h : x + 2 ≤ y) :
    roundHalfEven x < roundHalfEven y := by
  have h1 : roundHalfEven x ≤ ⌊x⌋ + 1 := roundHalfEven_le_floor_add_one x
  have h2 : ⌊y⌋ ≥ ⌊x + (2 : ℤ)⌋ := Int.floor_le_floor (by push_cast; linarith)
  have h3 : ⌊x + (2 : ℤ)⌋ = ⌊x⌋ + 2 := Int.floor_add_int x 2
  have h4 : ⌊y⌋ ≤ roundHalfEven y := floor_le_roundHalfEven y
  omega

-- ---------------------------------------------------------------------------
-- backend/cache.py : class LRUCache
-- ---------------------------------------------------------------------------

/-- State of `cache.LRUCache`.  `cache` models the Python `OrderedDict`:
an association list `key ↦ (value, timestamp)` kept in recency order
(head = least recently used, matching `next(iter(od))`; tail = most
recently used, matching `od.move_to_end`). -/
structure LRUCache (α : Type) where
  cache : List (String × α × Int)
  max_size : ℕ
  ttl : Int
  hits : ℕ
  misses : ℕ
deriving DecidableEq

/-- Dictionary lookup: the entry stored under `key` (first match; keys are
unique in every reachable state, as in a Python dict). -/
def lookupEntry {α : Type} : List (String × α × Int) → String → Option (α × Int)
  | [], _ => none
  | e :: rest, key => if e.1 = key then some e.2 else lookupEntry rest key

/-- Dictionary deletion `del od[key]`: drop the entry stored under `key`. -/
def removeKey {α : Type} (l : List (String × α × Int)) (key : String) :
    List (String × α × Int) :=
  l.filter (fun e => decide (e.1 ≠ key))

/-- The keys of the store, in recency order. -/
def keysOf {α : Type} (l : List (String × α × Int)) : List String :=
  l.map (·.1)

/-- `LRUCache.__init__`. -/
def LRUCache.empty (α : Type) (max_size : ℕ) (ttl : Int) : LRUCache α :=
  ⟨[], max_size, ttl, 0, 0⟩

/-- `LRUCache.get`.  Returns the looked-up value (if any) together with the
updated cache state: a miss increments `misses`; a present-but-expired entry
(`now - timestamp > ttl`) is deleted and counted as a miss; otherwise the
entry is moved to the most-recently-used end and `hits` is incremented. -/
def LRUCache.get {α : Type} (c : LRUCache α) (key : String) (now : Int) :
    Option α × LRUCache α :=
  match lookupEntry c.cache key with
  | none => (none, { c with misses := c.misses + 1 })
  | some (value, timestamp) =>
    if c.ttl < now - timestamp then
      (none, { c with cache := removeKey c.cache key, misses := c.misses + 1 })
    else
      (some value,
       { c with cache := removeKey c.cache key ++ [(key, value, timestamp)],
                hits := c.hits + 1 })

/-- `LRUCache.set`.  An existing key is moved to the most-recently-used end
and overwritten with a fresh timestamp; otherwise, if the store is full, the
least-recently-used entry (`next(iter(od))`) is evicted first.  On an empty
full store (`max_size = 0`) the Python code raises `StopIteration` from
`next(iter(...))`; this is modelled by returning `none`. -/
def LRUCache.set {α : Type} (c : LRUCache α) (key : String) (value : α)
    (now : Int) : Option (LRUCache α) :=
  if (lookupEntry c.cache key).isSome then
    some { c with cache := removeKey c.cache key ++ [(key, value, now)] }
  else if c.max_size ≤ c.cache.length then
    match c.cache with
    | [] => none
    | _ :: rest => some { c with cache := rest ++ [(key, value, now)] }
  else
    some { c with cache := c.cache ++ [(key, value, now)] }

/-- `LRUCache.delete`: remove the key if present, no-op otherwise. -/
def LRUCache.delete {α : Type} (c : LRUCache α) (key : String) : LRUCache α :=
  { c with cache := removeKey c.cache key }

/-- `LRUCache.clear`: drop all entries and reset both counters. -/
def LRUCache.clear {α : Type} (c : LRUCache α) : LRUCache α :=
  { c with cache := [], hits := 0, misses := 0 }

-- ---------------------------------------------------------------------------
-- Operation traces over an LRUCache, with the key touched by each step
-- ---------------------------------------------------------------------------

/-- One client operation on an `LRUCache`, with the wall-clock instant at
which it runs. -/
inductive CacheOp (α : Type) where
  | get (key : String) (now : Int)
  | set (key : String) (value : α) (now : Int)
  | delete (key : String)
  | clear

/-- Execute one operation; also report which key (if any) this operation
"touched", i.e. refreshed to most-recently-used (a `get` hit, or a `set`).
`none` as outer result models the `StopIteration` of `set` on an empty full
store. -/
def execT {α : Type} (c : LRUCache α) : CacheOp α → Option (LRUCache α × Option String)
  | .get key now =>
    let r := c.get key now
    some (r.2, if r.1.isSome then some key else none)
  | .set key value now => (c.set key value now).map (fun c' => (c', some key))
  | .delete key => some (c.delete key, none)
  | .clear => some (c.clear, none)

/-- Run a list of operations, accumulating the per-step touched keys in the
list `acc`, newest first (so the most recent touch of a key is its first
occurrence in the accumulated list). -/
def runT {α : Type} (c : LRUCache α) (acc : List (Option String)) :
    List (CacheOp α) → Option (LRUCache α × List (Option String))
  | [] => some (c, acc)
  | op :: ops =>
    match execT c op with
    | none => none
    | some (c', t) => runT c' (t :: acc) ops

/-- How many operations ago key `k` was last touched: the index of the first
occurrence of `some k` in the newest-first touch list. -/
def mrIdx : List (Option String) → String → Option ℕ
  | [], _ => none
  | t :: rest, k => if t = some k then some 0 else (mrIdx rest k).map (· + 1)

/-- The stored keys occur in order of their last touch: every stored key has
been touched, and along the store (least recently used first) the "touched
this many operations ago" index strictly decreases. -/
def RecencyOrdered {α : Type} (ts : List (Option String)) (c : LRUCache α) : Prop :=
  (∀ k ∈ keysOf c.cache, (mrIdx ts k).isSome) ∧
  List.Pairwise
    (fun a b => ∀ i j, mrIdx ts a = some i → mrIdx ts b = some j → j < i)
    (keysOf c.cache)

-- ---------------------------------------------------------------------------
-- Elementary lemmas about the dictionary model
-- ---------------------------------------------------------------------------

theorem lookupEntry_eq_none_iff {α : Type} (l : List (String × α × Int)) (k : String) :
    lookupEntry l k = none ↔ k ∉ keysOf l := by
  induction l with
  | nil => simp [lookupEntry, keysOf]
  | cons e rest ih =>
    by_cases h : e.1 = k
    · simp [lookupEntry, keysOf, h]
    · simp [lookupEntry, keysOf, h, ih]
      tauto

theorem keysOf_removeKey {α : Type} (l : List (String × α × Int)) (k : String) :
    keysOf (removeKey l k) = (keysOf l).filter (fun a => decide (a ≠ k)) := by
  induction l with
  | nil => rfl
  | cons e rest ih =>
    by_cases h : e.1 = k <;>
      simp [removeKey, keysOf, h, List.filter] at ih ⊢ <;>
      simpa [removeKey, keysOf] using ih

theorem mem_keysOf_removeKey {α : Type} {l : List (String × α × Int)} {k a : String} :
    a ∈ keysOf (removeKey l k) ↔ a ∈ keysOf l ∧ a ≠ k := by
  rw [keysOf_removeKey]
  simp

theorem lookupEntry_removeKey_self {α : Type} (l : List (String × α × Int)) (k : String) :
    lookupEntry (removeKey l k) k = none := by
  rw [lookupEntry_eq_none_iff, mem_keysOf_removeKey]
  simp

theorem lookupEntry_append_right {α : Type} {l1 : List (String × α × Int)}
    (l2 : List (String × α × Int)) {k : String} (h : lookupEntry l1 k = none) :
    lookupEntry (l1 ++ l2) k = lookupEntry l2 k := by
  induction l1 with
  | nil => rfl
  | cons e rest ih =>
    by_cases he : e.1 = k
    · simp [lookupEntry, he] at h
    · simp [lookupEntry, he] at h ⊢
      exact ih h

theorem length_removeKey_le {α : Type} (l : List (String × α × Int)) (k : String) :
    (removeKey l k).length ≤ l.length :=
  List.length_filter_le _ l

theorem length_removeKey_of_mem {α : Type} {l : List (String × α × Int)} {k : String}
    (h : (lookupEntry l k).isSome) : (removeKey l k).length + 1 ≤ l.length := by
  induction l with
  | nil => simp [lookupEntry] at h
  | cons e rest ih =>
    by_cases he : e.1 = k
    · have h2 : (removeKey rest k).length ≤ rest.length := length_removeKey_le rest k
      have h3 : removeKey (e :: rest) k = removeKey rest k := by
        simp [removeKey, List.filter, he]
      rw [h3, List.length_cons]
      omega
    · simp only [lookupEntry, if_neg he] at h
      have h2 := ih h
      have h3 : removeKey (e :: rest) k = e :: removeKey rest k := by
        simp [removeKey, List.filter, he]
      rw [h3, List.length_cons, List.length_cons]
      omega

theorem keysOf_append {α : Type} (l1 l2 : List (String × α × Int)) :
    keysOf (l1 ++ l2) = keysOf l1 ++ keysOf l2 := by
  simp [keysOf]

-- mrIdx lemmas --------------------------------------------------------------

theorem mrIdx_cons_touched (ts : List (Option String)) (k : String) :
    mrIdx (some k :: ts) k = some 0 := by
  simp [mrIdx]

theorem mrIdx_cons_untouched {t : Option String} {k : String}
    (h : t ≠ some k) (ts : List (Option String)) :
    mrIdx (t :: ts) k = (mrIdx ts k).map (· + 1) := by
  simp [mrIdx, h]

-- ---------------------------------------------------------------------------
-- Preservation of the recency-order invariant
-- ---------------------------------------------------------------------------

theorem recencyOrdered_untouched {α : Type} {c c' : LRUCache α} {t : Option String}
    {ts : List (Option String)} (h : RecencyOrdered ts c)
    (hsub : (keysOf c'.cache).Sublist (keysOf c.cache))
    (ht : ∀ k ∈ keysOf c'.cache, t ≠ some k) :
    RecencyOrdered (t :: ts) c' := by
  obtain ⟨hsome, hpair⟩ := h
  constructor
  · intro k hk
    rw [mrIdx_cons_untouched (ht k hk)]
    have := hsome k (hsub.mem hk)
    simpa using this
  · have hp' := hpair.sublist hsub
    refine List.Pairwise.imp_of_mem (fun {a b} ha hb hr => ?_) hp'
    intro i j hi hj
    rw [mrIdx_cons_untouched (ht a ha)] at hi
    rw [mrIdx_cons_untouched (ht b hb)] at hj
    rcases ha' : mrIdx ts a with _ | i0
    · rw [ha'] at hi
      simp at hi
    · rcases hb' : mrIdx ts b with _ | j0
      · rw [hb'] at hj
        simp at hj
      · rw [ha'] at hi
        rw [hb'] at hj
        simp at hi hj
        have := hr i0 j0 ha' hb'
        omega

theorem recencyOrdered_append_touch {α : Type} {c c' : LRUCache α} {k : String}
    {ts : List (Option String)} {l0 : List String} (h : RecencyOrdered ts c)
    (hk : keysOf c'.cache = l0 ++ [k])
    (hsub : l0.Sublist (keysOf c.cache))
    (hnotin : k ∉ l0) :
    RecencyOrdered (some k :: ts) c' := by
  obtain ⟨hsome, hpair⟩ := h
  constructor
  · intro a ha
    rw [hk] at ha
    rcases List.mem_append.1 ha with ha0 | hak
    · have hne : a ≠ k := fun he => hnotin (he ▸ ha0)
      rw [mrIdx_cons_untouched (fun he => hne (Option.some.inj he).symm)]
      have := hsome a (hsub.mem ha0)
      simpa using this
    · have hak' : a = k := by simpa using hak
      subst hak'
      rw [mrIdx_cons_touched]
      simp
  · rw [hk, List.pairwise_append]
    refine ⟨?_, by simp, ?_⟩
    · have hp' := hpair.sublist hsub
      refine List.Pairwise.imp_of_mem (fun {a b} ha hb hr => ?_) hp'
      intro i j hi hj
      have hna : a ≠ k := fun he => hnotin (he ▸ ha)
      have hnb : b ≠ k := fun he => hnotin (he ▸ hb)
      rw [mrIdx_cons_untouched (fun he => hna (Option.some.inj he).symm)] at hi
      rw [mrIdx_cons_untouched (fun he => hnb (Option.some.inj he).symm)] at hj
      rcases ha' : mrIdx ts a with _ | i0
      · rw [ha'] at hi
        simp at hi
      · rcases hb' : mrIdx ts b with _ | j0
        · rw [hb'] at hj
          simp at hj
        · rw [ha'] at hi
          rw [hb'] at hj
          simp at hi hj
          have := hr i0 j0 ha' hb'
          omega
    · intro a ha b hb
      have hbk : b = k := by simpa using hb
      subst hbk
      intro i j hi hj
      have hna : a ≠ b := fun he => hnotin (he ▸ ha)
      rw [mrIdx_cons_untouched (fun he => hna (Option.some.inj he).symm)] at hi
      rw [mrIdx_cons_touched] at hj
      rcases ha' : mrIdx ts a with _ | i0
      · rw [ha'] at hi
        simp at hi
      · rw [ha'] at hi
        simp at hi hj
        omega

theorem keysOf_removeKey_sublist {α : Type} (l : List (String × α × Int)) (k : String) :
    (keysOf (removeKey l k)).Sublist (keysOf l) := by
  rw [keysOf_removeKey]
  exact List.filter_sublist (keysOf l)

theorem not_mem_filter_self (l : List String) (k : String) :
    k ∉ l.filter (fun a => decide (a ≠ k)) := by
  intro h
  have := (List.mem_filter.1 h).2
  simp at this

/-- One cache operation preserves the recency-order invariant. -/
theorem recency_step {α : Type} {c c' : LRUCache α} {op : CacheOp α}
    {t : Option String} {ts : List (Option String)}
    (h : RecencyOrdered ts c) (he : execT c op = some (c', t)) :
    RecencyOrdered (t :: ts) c' := by
  cases op with
  | get key now =>
    simp only [execT] at he
    rcases hl : lookupEntry c.cache key with _ | vt
    · simp only [LRUCache.get, hl] at he
      rw [Option.some.injEq, Prod.mk.injEq] at he
      obtain ⟨hc', ht⟩ := he
      subst hc'
      subst ht
      exact recencyOrdered_untouched h (by simp) (by simp)
    · obtain ⟨value, timestamp⟩ := vt
      by_cases hexp : c.ttl < now - timestamp
      · simp only [LRUCache.get, hl, if_pos hexp] at he
        rw [Option.some.injEq, Prod.mk.injEq] at he
        obtain ⟨hc', ht⟩ := he
        subst hc'
        subst ht
        refine recencyOrdered_untouched h ?_ (by simp)
        show (keysOf (removeKey c.cache key)).Sublist (keysOf c.cache)
        exact keysOf_removeKey_sublist c.cache key
      · simp only [LRUCache.get, hl, if_neg hexp] at he
        rw [Option.some.injEq, Prod.mk.injEq] at he
        obtain ⟨hc', ht⟩ := he
        subst hc'
        subst ht
        refine @recencyOrdered_append_touch α c _ key ts
          ((keysOf c.cache).filter (fun a => decide (a ≠ key))) h ?_ ?_ ?_
        · show keysOf (removeKey c.cache key ++ [(key, value, timestamp)]) =
            (keysOf c.cache).filter (fun a => decide (a ≠ key)) ++ [key]
          rw [keysOf_append, keysOf_removeKey]
          rfl
        · exact List.filter_sublist (keysOf c.cache)
        · exact not_mem_filter_self (keysOf c.cache) key
  | set key value now =>
    simp only [execT, Option.map_eq_some'] at he
    obtain ⟨c0, hset, hct⟩ := he
    rw [Prod.mk.injEq] at hct
    obtain ⟨hc', ht⟩ := hct
    subst hc'
    subst ht
    unfold LRUCache.set at hset
    by_cases hmem : (lookupEntry c.cache key).isSome
    · rw [if_pos hmem, Option.some.injEq] at hset
      subst hset
      refine @recencyOrdered_append_touch α c _ key ts
        ((keysOf c.cache).filter (fun a => decide (a ≠ key))) h ?_ ?_ ?_
      · show keysOf (removeKey c.cache key ++ [(key, value, now)]) =
          (keysOf c.cache).filter (fun a => decide (a ≠ key)) ++ [key]
        rw [keysOf_append, keysOf_removeKey]
        rfl
      · exact List.filter_sublist (keysOf c.cache)
      · exact not_mem_filter_self (keysOf c.cache) key
    · have hnone : lookupEntry c.cache key = none := Option.not_isSome_iff_eq_none.1 hmem
      have hnotk : key ∉ keysOf c.cache := (lookupEntry_eq_none_iff c.cache key).1 hnone
      rw [if_neg hmem] at hset
      by_cases hfull : c.max_size ≤ c.cache.length
      · rw [if_pos hfull] at hset
        rcases hc : c.cache with _ | ⟨e, rest⟩
        · rw [hc] at hset
          simp at hset
        · rw [hc, Option.some.injEq] at hset
          subst hset
          refine @recencyOrdered_append_touch α c _ key ts (keysOf rest) h ?_ ?_ ?_
          · show keysOf (rest ++ [(key, value, now)]) = keysOf rest ++ [key]
            rw [keysOf_append]
            rfl
          · rw [hc]
            show (keysOf rest).Sublist (keysOf (e :: rest))
            exact (List.sublist_cons_self e.1 (keysOf rest))
          · intro hk
            apply hnotk
            rw [hc]
            exact List.mem_cons_of_mem _ hk
      · rw [if_neg hfull, Option.some.injEq] at hset
        subst hset
        refine @recencyOrdered_append_touch α c _ key ts (keysOf c.cache) h ?_ ?_ ?_
        · show keysOf (c.cache ++ [(key, value, now)]) = keysOf c.cache ++ [key]
          rw [keysOf_append]
          rfl
        · exact List.Sublist.refl _
        · exact hnotk
  | delete key =>
    simp only [execT, Option.some.injEq, Prod.mk.injEq] at he
    obtain ⟨hc', ht⟩ := he
    subst hc'
    subst ht
    refine recencyOrdered_untouched h ?_ (by simp)
    show (keysOf (removeKey c.cache key)).Sublist (keysOf c.cache)
    exact keysOf_removeKey_sublist c.cache key
  | clear =>
    simp only [execT, Option.some.injEq, Prod.mk.injEq] at he
    obtain ⟨hc', ht⟩ := he
    subst hc'
    subst ht
    exact recencyOrdered_untouched h (List.nil_sublist _) (by simp [LRUCache.clear, keysOf])

/-- One cache operation preserves the size bound and the configured capacity. -/
theorem execT_size {α : Type} {c c' : LRUCache α} {op : CacheOp α}
    {t : Option String} (h : c.cache.length ≤ c.max_size)
    (he : execT c op = some (c', t)) :
    c'.cache.length ≤ c'.max_size ∧ c'.max_size = c.max_size ∧ c'.ttl = c.ttl := by
  cases op with
  | get key now =>
    simp only [execT] at he
    rcases hl : lookupEntry c.cache key with _ | vt
    · simp only [LRUCache.get, hl] at he
      rw [Option.some.injEq, Prod.mk.injEq] at he
      obtain ⟨hc', _⟩ := he
      subst hc'
      exact ⟨h, rfl, rfl⟩
    · obtain ⟨value, timestamp⟩ := vt
      by_cases hexp : c.ttl < now - timestamp
      · simp only [LRUCache.get, hl, if_pos hexp] at he
        rw [Option.some.injEq, Prod.mk.injEq] at he
        obtain ⟨hc', _⟩ := he
        subst hc'
        exact ⟨le_trans (length_removeKey_le c.cache key) h, rfl, rfl⟩
      · simp only [LRUCache.get, hl, if_neg hexp] at he
        rw [Option.some.injEq, Prod.mk.injEq] at he
        obtain ⟨hc', _⟩ := he
        subst hc'
        refine ⟨?_, rfl, rfl⟩
        show (removeKey c.cache key ++ [(key, value, timestamp)]).length ≤ c.max_size
        rw [List.length_append]
        have := length_removeKey_of_mem (l := c.cache) (k := key) (by rw [hl]; rfl)
        simp only [List.length_singleton]
        omega
  | set key value now =>
    simp only [execT, Option.map_eq_some'] at he
    obtain ⟨c0, hset, hct⟩ := he
    rw [Prod.mk.injEq] at hct
    obtain ⟨hc', _⟩ := hct
    subst hc'
    unfold LRUCache.set at hset
    by_cases hmem : (lookupEntry c.cache key).isSome
    · rw [if_pos hmem, Option.some.injEq] at hset
      subst hset
      refine ⟨?_, rfl, rfl⟩
      show (removeKey c.cache key ++ [(key, value, now)]).length ≤ c.max_size
      rw [List.length_append]
      have := length_removeKey_of_mem (l := c.cache) (k := key) hmem
      simp only [List.length_singleton]
      omega
    · rw [if_neg hmem] at hset
      by_cases hfull : c.max_size ≤ c.cache.length
      · rw [if_pos hfull] at hset
        rcases hc : c.cache with _ | ⟨e, rest⟩
        · rw [hc] at hset
          simp at hset
        · rw [hc, Option.some.injEq] at hset
          subst hset
          refine ⟨?_, rfl, rfl⟩
          show (rest ++ [(key, value, now)]).length ≤ c.max_size
          rw [List.length_append]
          rw [hc] at h
          simp only [List.length_cons] at h
          simp only [List.length_singleton]
          omega
      · rw [if_neg hfull, Option.some.injEq] at hset
        subst hset
        refine ⟨?_, rfl, rfl⟩
        show (c.cache ++ [(key, value, now)]).length ≤ c.max_size
        rw [List.length_append]
        simp only [List.length_singleton]
        omega
  | delete key =>
    simp only [execT, Option.some.injEq, Prod.mk.injEq] at he
    obtain ⟨hc', _⟩ := he
    subst hc'
    exact ⟨le_trans (length_removeKey_le c.cache key) h, rfl, rfl⟩
  | clear =>
    simp only [execT, Option.some.injEq, Prod.mk.injEq] at he
    obtain ⟨hc', _⟩ := he
    subst hc'
    exact ⟨Nat.zero_le _, rfl, rfl⟩

/-- Invariants carried along any successfully executed operation trace. -/
theorem runT_inv {α : Type} :
    ∀ (ops : List (CacheOp α)) (c : LRUCache α) (acc : List (Option String))
      (c' : LRUCache α) (ts' : List (Option String)),
      RecencyOrdered acc c → c.cache.length ≤ c.max_size →
      runT c acc ops = some (c', ts') →
      RecencyOrdered ts' c' ∧ c'.cache.length ≤ c'.max_size ∧
        c'.max_size = c.max_size ∧ c'.ttl = c.ttl := by
  intro ops
  induction ops with
  | nil =>
    intro c acc c' ts' hrec hsize hrun
    simp only [runT, Option.some.injEq, Prod.mk.injEq] at hrun
    obtain ⟨hc', hts⟩ := hrun
    subst hc'
    subst hts
    exact ⟨hrec, hsize, rfl, rfl⟩
  | cons op ops ih =>
    intro c acc c' ts' hrec hsize hrun
    rw [runT] at hrun
    rcases he : execT c op with _ | ct
    · rw [he] at hrun
      simp at hrun
    · obtain ⟨c1, t⟩ := ct
      rw [he] at hrun
      have h1 := recency_step hrec he
      have h2 := execT_size hsize he
      have h3 := ih c1 (t :: acc) c' ts' h1 h2.1 hrun
      exact ⟨h3.1, h3.2.1, h3.2.2.1.trans h2.2.1, h3.2.2.2.trans h2.2.2⟩

theorem recencyOrdered_empty (α : Type) (m : ℕ) (ttl : Int) :
    RecencyOrdered [] (LRUCache.empty α m ttl) := by
  constructor
  · intro k hk
    simp [LRUCache.empty, keysOf] at hk
  · simp [LRUCache.empty, keysOf]

/-- C3: over any successfully executed operation sequence from a fresh
`LRUCache`, (1) the number of stored entries never exceeds `max_size`;
(2) a `get` hit moves its key to the most-recently-used end; (3) a
successful `set` moves its key to the most-recently-used end; (4) when a
`set` of a new key finds the store full, the single evicted entry is the
head of the recency order, and that key's last touch lies further in the
past than (or equal to, for itself) the last touch of every currently
stored key; (5) scenario: with `max_size = 2`, after
`set k1; set k2; get k1; set k3` the store holds exactly `k1` and `k3`
(in that recency order), `k2` having been evicted. -/
theorem lruCache_size_recency_eviction :
    (∀ (α : Type) (ops : List (CacheOp α)) (m : ℕ) (ttl : Int)
       (s : LRUCache α) (ts : List (Option String)),
       runT (LRUCache.empty α m ttl) [] ops = some (s, ts) →
       s.cache.length ≤ m)
    ∧
    (∀ (α : Type) (c : LRUCache α) (key : String) (now : Int) (v : α),
       (c.get key now).1 = some v →
       (keysOf (c.get key now).2.cache).getLast? = some key)
    ∧
    (∀ (α : Type) (c c' : LRUCache α) (key : String) (v : α) (now : Int),
       c.set key v now = some c' → (keysOf c'.cache).getLast? = some key)
    ∧
    (∀ (α : Type) (ops : List (CacheOp α)) (m : ℕ) (ttl : Int)
       (s s' : LRUCache α) (ts : List (Option String))
       (key : String) (v : α) (now : Int),
       runT (LRUCache.empty α m ttl) [] ops = some (s, ts) →
       key ∉ keysOf s.cache → s.max_size ≤ s.cache.length →
       s.set key v now = some s' →
       ∃ evicted rest, s.cache = evicted :: rest ∧
         keysOf s'.cache = keysOf rest ++ [key] ∧
         ∀ k' ∈ keysOf s.cache, ∀ i j, mrIdx ts evicted.1 = some i →
           mrIdx ts k' = some j → j ≤ i)
    ∧
    runT (LRUCache.empty ℕ 2 100) []
        [.set "k1" 1 0, .set "k2" 2 1, .get "k1" 2, .set "k3" 3 3] =
      some (⟨[("k1", 1, 0), ("k3", 3, 3)], 2, 100, 1, 0⟩,
            [some "k3", some "k1", some "k2", some "k1"]) := by
  refine ⟨?_, ?_, ?_, ?_, by decide⟩
  · intro α ops m ttl s ts hrun
    have h := runT_inv ops (LRUCache.empty α m ttl) [] s ts
      (recencyOrdered_empty α m ttl) (by simp [LRUCache.empty]) hrun
    have hm : s.max_size = m := h.2.2.1
    have := h.2.1
    omega
  · intro α c key now v hget
    rcases hl : lookupEntry c.cache key with _ | vt
    · simp [LRUCache.get, hl] at hget
    · obtain ⟨value, timestamp⟩ := vt
      by_cases hexp : c.ttl < now - timestamp
      · simp [LRUCache.get, hl, if_pos hexp] at hget
      · simp only [LRUCache.get, hl, if_neg hexp]
        show (keysOf (removeKey c.cache key ++ [(key, value, timestamp)])).getLast? = some key
        rw [keysOf_append]
        exact List.getLast?_concat _
  · intro α c c' key v now hset
    unfold LRUCache.set at hset
    by_cases hmem : (lookupEntry c.cache key).isSome
    · rw [if_pos hmem, Option.some.injEq] at hset
      subst hset
      show (keysOf (removeKey c.cache key ++ [(key, v, now)])).getLast? = some key
      rw [keysOf_append]
      exact List.getLast?_concat _
    · rw [if_neg hmem] at hset
      by_cases hfull : c.max_size ≤ c.cache.length
      · rw [if_pos hfull] at hset
        rcases hc : c.cache with _ | ⟨e, rest⟩
        · rw [hc] at hset
          simp at hset
        · rw [hc, Option.some.injEq] at hset
          subst hset
          show (keysOf (rest ++ [(key, v, now)])).getLast? = some key
          rw [keysOf_append]
          exact List.getLast?_concat _
      · rw [if_neg hfull, Option.some.injEq] at hset
        subst hset
        show (keysOf (c.cache ++ [(key, v, now)])).getLast? = some key
        rw [keysOf_append]
        exact List.getLast?_concat _
  · intro α ops m ttl s s' ts key v now hrun hnotin hfull hset
    have hinv := runT_inv ops (LRUCache.empty α m ttl) [] s ts
      (recencyOrdered_empty α m ttl) (by simp [LRUCache.empty]) hrun
    obtain ⟨⟨_, hpair⟩, _, _, _⟩ := hinv
    have hnone : lookupEntry s.cache key = none :=
      (lookupEntry_eq_none_iff s.cache key).2 hnotin
    unfold LRUCache.set at hset
    rw [if_neg (by rw [hnone]; simp), if_pos hfull] at hset
    rcases hc : s.cache with _ | ⟨e, rest⟩
    · rw [hc] at hset
      simp at hset
    · rw [hc, Option.some.injEq] at hset
      subst hset
      refine ⟨e, rest, rfl, ?_, ?_⟩
      · show keysOf (rest ++ [(key, v, now)]) = keysOf rest ++ [key]
        rw [keysOf_append]
        rfl
      · intro k' hk' i j hi hj
        rw [hc] at hpair
        simp only [keysOf, List.map_cons] at hpair hk'
        rw [List.pairwise_cons] at hpair
        rcases List.mem_cons.1 hk' with hke | hkr
        · subst hke
          rw [hi, Option.some.injEq] at hj
          omega
        · have := hpair.1 k' hkr i j hi hj
          omega

-- ---------------------------------------------------------------------------
-- backend/cache.py : class TranscriptionCache
-- ---------------------------------------------------------------------------

/-- `TranscriptionCache._generate_key`: `"{mode}:{language}:{sha256(audio)}"`.
`sha256hex` abstracts Python's `hashlib.sha256(...).hexdigest()` (an external
primitive); the key format itself is taken from the source. -/
def generateKey (sha256hex : List ℕ → String) (audio_bytes : List ℕ)
    (language mode : String) : String :=
  mode ++ ":" ++ language ++ ":" ++ sha256hex audio_bytes

/-- `cache.TranscriptionCache`: a wrapper around `LRUCache` keyed by the
content-addressed key. -/
structure TranscriptionCache (V : Type) where
  cache : LRUCache V
deriving DecidableEq

/-- `TranscriptionCache.__init__` (defaults `max_size=50`, `ttl=3600`). -/
def TranscriptionCache.init (V : Type) (max_size : ℕ) (ttl : Int) :
    TranscriptionCache V :=
  ⟨LRUCache.empty V max_size ttl⟩

/-- `TranscriptionCache.get`: delegate to the LRU store under the generated
key (the updated store state is returned alongside, since `get` mutates). -/
def TranscriptionCache.get {V : Type} (sha256hex : List ℕ → String)
    (tc : TranscriptionCache V) (audio_bytes : List ℕ) (language mode : String)
    (now : Int) : Option V × TranscriptionCache V :=
  let r := tc.cache.get (generateKey sha256hex audio_bytes language mode) now
  (r.1, ⟨r.2⟩)

/-- `TranscriptionCache.set`: delegate to the LRU store under the generated
key. -/
def TranscriptionCache.set {V : Type} (sha256hex : List ℕ → String)
    (tc : TranscriptionCache V) (audio_bytes : List ℕ) (language mode : String)
    (result : V) (now : Int) : Option (TranscriptionCache V) :=
  (tc.cache.set (generateKey sha256hex audio_bytes language mode) result now).map
    (fun c => ⟨c⟩)

theorem lookupEntry_append_singleton {α : Type} {l : List (String × α × Int)}
    {k : String} (h : lookupEntry l k = none) (v : α) (ts : Int) :
    lookupEntry (l ++ [(k, v, ts)]) k = some (v, ts) := by
  rw [lookupEntry_append_right _ h]
  simp [lookupEntry]

/-- After a successful `LRUCache.set`, the key is stored with the given value
and the fresh timestamp. -/
theorem lruCache_set_stores {α : Type} {c c' : LRUCache α} {key : String}
    {v : α} {now : Int} (h : c.set key v now = some c') :
    lookupEntry c'.cache key = some (v, now) := by
  unfold LRUCache.set at h
  by_cases hmem : (lookupEntry c.cache key).isSome
  · rw [if_pos hmem, Option.some.injEq] at h
    subst h
    exact lookupEntry_append_singleton (lookupEntry_removeKey_self c.cache key) v now
  · have hnone : lookupEntry c.cache key = none := Option.not_isSome_iff_eq_none.1 hmem
    have hnotk : key ∉ keysOf c.cache := (lookupEntry_eq_none_iff c.cache key).1 hnone
    rw [if_neg hmem] at h
    by_cases hfull : c.max_size ≤ c.cache.length
    · rw [if_pos hfull] at h
      rcases hc : c.cache with _ | ⟨e, rest⟩
      · rw [hc] at h
        simp at h
      · rw [hc, Option.some.injEq] at h
        subst h
        refine lookupEntry_append_singleton ?_ v now
        rw [lookupEntry_eq_none_iff]
        intro hk
        apply hnotk
        rw [hc]
        exact List.mem_cons_of_mem _ hk
    · rw [if_neg hfull, Option.some.injEq] at h
      subst h
      exact lookupEntry_append_singleton hnone v now

/-- C4: after `set` under key(A,L,M) with value R at time `now`, the entry
(R, now) is stored under that key; while an entry (R, ts) is stored and its
age has not exceeded the TTL, `get` returns R; once the age exceeds the TTL,
`get` removes the entry, counts a miss, and returns absent. -/
theorem transcriptionCache_set_get_ttl :
    (∀ (V : Type) (sha256hex : List ℕ → String) (tc tc' : TranscriptionCache V)
       (A : List ℕ) (L M : String) (R : V) (now : Int),
       TranscriptionCache.set sha256hex tc A L M R now = some tc' →
       lookupEntry tc'.cache.cache (generateKey sha256hex A L M) = some (R, now))
    ∧
    (∀ (V : Type) (sha256hex : List ℕ → String) (tc : TranscriptionCache V)
       (A : List ℕ) (L M : String) (R : V) (ts now : Int),
       lookupEntry tc.cache.cache (generateKey sha256hex A L M) = some (R, ts) →
       now - ts ≤ tc.cache.ttl →
       (TranscriptionCache.get sha256hex tc A L M now).1 = some R)
    ∧
    (∀ (V : Type) (sha256hex : List ℕ → String) (tc : TranscriptionCache V)
       (A : List ℕ) (L M : String) (R : V) (ts now : Int),
       lookupEntry tc.cache.cache (generateKey sha256hex A L M) = some (R, ts) →
       tc.cache.ttl < now - ts →
       (TranscriptionCache.get sha256hex tc A L M now).1 = none ∧
       lookupEntry (TranscriptionCache.get sha256hex tc A L M now).2.cache.cache
         (generateKey sha256hex A L M) = none ∧
       (TranscriptionCache.get sha256hex tc A L M now).2.cache.misses =
         tc.cache.misses + 1) := by
  refine ⟨?_, ?_, ?_⟩
  · intro V sha256hex tc tc' A L M R now hset
    unfold TranscriptionCache.set at hset
    rw [Option.map_eq_some'] at hset
    obtain ⟨c0, hc0, htc⟩ := hset
    subst htc
    exact lruCache_set_stores hc0
  · intro V sha256hex tc A L M R ts now hl hage
    unfold TranscriptionCache.get
    simp only [LRUCache.get, hl]
    rw [if_neg (by omega)]
  · intro V sha256hex tc A L M R ts now hl hage
    unfold TranscriptionCache.get
    simp only [LRUCache.get, hl]
    rw [if_pos (by omega)]
    exact ⟨rfl, lookupEntry_removeKey_self _ _, rfl⟩

/-- C4 witness: a concrete run of the cached set-then-get round trip and of
lazy expiry. -/
theorem transcriptionCache_set_get_ttl_witness :
    (TranscriptionCache.set (fun _ => "hash") (TranscriptionCache.init ℕ 10 5)
        [1, 2] "eng_Latn" "standard" 42 0 =
      some ⟨⟨[("standard:eng_Latn:hash", 42, 0)], 10, 5, 0, 0⟩⟩) ∧
    lookupEntry ((⟨⟨[("standard:eng_Latn:hash", 42, 0)], 10, 5, 0, 0⟩⟩ :
        TranscriptionCache ℕ)).cache.cache
      (generateKey (fun _ => "hash") [1, 2] "eng_Latn" "standard") = some (42, 0) ∧
    (TranscriptionCache.get (fun _ => "hash")
        ⟨⟨[("standard:eng_Latn:hash", 42, 0)], 10, 5, 0, 0⟩⟩
        [1, 2] "eng_Latn" "standard" 3).1 = some 42 ∧
    (TranscriptionCache.get (fun _ => "hash")
        ⟨⟨[("standard:eng_Latn:hash", 42, 0)], 10, 5, 0, 0⟩⟩
        [1, 2] "eng_Latn" "standard" 9).1 = none ∧
    lookupEntry (TranscriptionCache.get (fun _ => "hash")
        ⟨⟨[("standard:eng_Latn:hash", 42, 0)], 10, 5, 0, 0⟩⟩
        [1, 2] "eng_Latn" "standard" 9).2.cache.cache
      (generateKey (fun _ => "hash") [1, 2] "eng_Latn" "standard") = none ∧
    (TranscriptionCache.get (fun _ => "hash")
        ⟨⟨[("standard:eng_Latn:hash", 42, 0)], 10, 5, 0, 0⟩⟩
        [1, 2] "eng_Latn" "standard" 9).2.cache.misses = 1 := by
  have h := transcriptionCache_set_get_ttl
  refine ⟨by decide, ?_, ?_, ?_, ?_, ?_⟩
  · exact h.1 ℕ (fun _ => "hash") (TranscriptionCache.init ℕ 10 5)
      ⟨⟨[("standard:eng_Latn:hash", 42, 0)], 10, 5, 0, 0⟩⟩
      [1, 2] "eng_Latn" "standard" 42 0 (by decide)
  · exact h.2.1 ℕ (fun _ => "hash")
      ⟨⟨[("standard:eng_Latn:hash", 42, 0)], 10, 5, 0, 0⟩⟩
      [1, 2] "eng_Latn" "standard" 42 0 3 (by decide) (by decide)
  · exact (h.2.2 ℕ (fun _ => "hash")
      ⟨⟨[("standard:eng_Latn:hash", 42, 0)], 10, 5, 0, 0⟩⟩
      [1, 2] "eng_Latn" "standard" 42 0 9 (by decide) (by decide)).1
  · exact (h.2.2 ℕ (fun _ => "hash")
      ⟨⟨[("standard:eng_Latn:hash", 42, 0)], 10, 5, 0, 0⟩⟩
      [1, 2] "eng_Latn" "standard" 42 0 9 (by decide) (by decide)).2.1
  · exact (h.2.2 ℕ (fun _ => "hash")
      ⟨⟨[("standard:eng_Latn:hash", 42, 0)], 10, 5, 0, 0⟩⟩
      [1, 2] "eng_Latn" "standard" 42 0 9 (by decide) (by decide)).2.2

/-- C3 witness: the invariant theorem applied to the concrete scenario
trace (`set k1; set k2; get k1`, then probing `get` and the evicting
`set k3`). -/
theorem lruCache_size_recency_eviction_witness :
    (⟨[("k2", 2, 1), ("k1", 1, 0)], 2, 100, 1, 0⟩ : LRUCache ℕ).cache.length ≤ 2 ∧
    (keysOf ((LRUCache.get (⟨[("k2", 2, 1), ("k1", 1, 0)], 2, 100, 1, 0⟩ : LRUCache ℕ)
        "k1" 5).2).cache).getLast? = some "k1" ∧
    (keysOf (⟨[("k1", 1, 0), ("k3", 3, 3)], 2, 100, 1, 0⟩ : LRUCache ℕ).cache).getLast? =
      some "k3" ∧
    (∃ evicted rest,
      (⟨[("k2", 2, 1), ("k1", 1, 0)], 2, 100, 1, 0⟩ : LRUCache ℕ).cache = evicted :: rest ∧
      keysOf (⟨[("k1", 1, 0), ("k3", 3, 3)], 2, 100, 1, 0⟩ : LRUCache ℕ).cache =
        keysOf rest ++ ["k3"] ∧
      ∀ k' ∈ keysOf (⟨[("k2", 2, 1), ("k1", 1, 0)], 2, 100, 1, 0⟩ : LRUCache ℕ).cache,
        ∀ i j, mrIdx [some "k1", some "k2", some "k1"] evicted.1 = some i →
          mrIdx [some "k1", some "k2", some "k1"] k' = some j → j ≤ i) := by
  have h := lruCache_size_recency_eviction
  refine ⟨?_, ?_, ?_, ?_⟩
  · exact h.1 ℕ [.set "k1" 1 0, .set "k2" 2 1, .get "k1" 2] 2 100
      ⟨[("k2", 2, 1), ("k1", 1, 0)], 2, 100, 1, 0⟩
      [some "k1", some "k2", some "k1"] (by decide)
  · exact h.2.1 ℕ ⟨[("k2", 2, 1), ("k1", 1, 0)], 2, 100, 1, 0⟩ "k1" 5 1 (by decide)
  · exact h.2.2.1 ℕ ⟨[("k2", 2, 1), ("k1", 1, 0)], 2, 100, 1, 0⟩
      ⟨[("k1", 1, 0), ("k3", 3, 3)], 2, 100, 1, 0⟩ "k3" 3 3 (by decide)
  · exact h.2.2.2.1 ℕ [.set "k1" 1 0, .set "k2" 2 1, .get "k1" 2] 2 100
      ⟨[("k2", 2, 1), ("k1", 1, 0)], 2, 100, 1, 0⟩
      ⟨[("k1", 1, 0), ("k3", 3, 3)], 2, 100, 1, 0⟩
      [some "k1", some "k2", some "k1"] "k3" 3 3
      (by decide) (by decide) (by decide) (by decide)

/-- C10: `set` on a cache with `max_size ≥ 1` always succeeds, evicting at
most one entry before inserting; `set` of a new key on a cache constructed
with `max_size = 0` (whose store is necessarily empty) fails — the Python
code raises `StopIteration` out of `next(iter(...))` on the empty
`OrderedDict`. -/
theorem lruCache_set_succeeds_or_raises :
    (∀ (α : Type) (c : LRUCache α) (key : String) (v : α) (now : Int),
       1 ≤ c.max_size →
       ∃ c', c.set key v now = some c' ∧
         c'.cache.length ≤ c.cache.length + 1)
    ∧
    (∀ (α : Type) (c : LRUCache α) (key : String) (v : α) (now : Int),
       c.max_size = 0 → c.cache = [] → c.set key v now = none) := by
  constructor
  · intro α c key v now hm
    unfold LRUCache.set
    by_cases hmem : (lookupEntry c.cache key).isSome
    · rw [if_pos hmem]
      refine ⟨_, rfl, ?_⟩
      show (removeKey c.cache key ++ [(key, v, now)]).length ≤ c.cache.length + 1
      rw [List.length_append]
      have := length_removeKey_le c.cache key
      simp only [List.length_singleton]
      omega
    · rw [if_neg hmem]
      by_cases hfull : c.max_size ≤ c.cache.length
      · rw [if_pos hfull]
        rcases hc : c.cache with _ | ⟨e, rest⟩
        · exfalso
          have hlen : c.cache.length = 0 := by rw [hc]; rfl
          omega
        · refine ⟨_, rfl, ?_⟩
          show (rest ++ [(key, v, now)]).length ≤ (e :: rest).length + 1
          rw [List.length_append, List.length_cons]
          simp only [List.length_cons, List.length_nil]
          omega
      · rw [if_neg hfull]
        refine ⟨_, rfl, ?_⟩
        show (c.cache ++ [(key, v, now)]).length ≤ c.cache.length + 1
        rw [List.length_append]
        simp only [List.length_singleton]
        omega
  · intro α c key v now hm hc
    unfold LRUCache.set
    rw [hc, hm]
    simp [lookupEntry]

/-- C10 witness: on `max_size = 1` the insert succeeds; on `max_size = 0`
the very first insert fails. -/
theorem lruCache_set_succeeds_or_raises_witness :
    (∃ c', (LRUCache.empty ℕ 1 10).set "k" 7 0 = some c' ∧
      c'.cache.length ≤ (LRUCache.empty ℕ 1 10).cache.length + 1) ∧
    (LRUCache.empty ℕ 0 10).set "k" 7 0 = none := by
  have h := lruCache_set_succeeds_or_raises
  exact ⟨h.1 ℕ (LRUCache.empty ℕ 1 10) "k" 7 0 (by decide),
         h.2 ℕ (LRUCache.empty ℕ 0 10) "k" 7 0 (by decide) (by decide)⟩

-- ---------------------------------------------------------------------------
-- backend/monitoring.py : class MetricsCollector
-- ---------------------------------------------------------------------------

/-- Python's `lst[-limit:]` for a non-negative `limit`: for `limit = 0` the
slice is `lst[0:]`, i.e. the whole list; for `limit ≥ 1` it is the last
`min(limit, len(lst))` elements. -/
def pySliceLast {M : Type} (l : List M) (limit : ℕ) : List M :=
  if limit = 0 then l else l.drop (l.length - limit)

/-- State of `monitoring.MetricsCollector`.  `metrics` models the
`defaultdict(list)` of per-kind record lists (`metrics.get(kind, [])` is
total lookup with default `[]`); `counters` models the `defaultdict(int)`;
records of type `M` are appended newest-last. -/
structure MetricsCollector (M : Type) where
  metrics : String → List M
  counters : String → Int
  start_time : Int

/-- `MetricsCollector.get_recent_metrics`:
`self.metrics.get(metric_type, [])[-limit:]`. -/
def MetricsCollector.get_recent_metrics {M : Type} (mc : MetricsCollector M)
    (metric_type : String) (limit : ℕ) : List M :=
  pySliceLast (mc.metrics metric_type) limit

/-- C8 counterexample: with a single stored record, `recent(kind, 0)`
returns that record — Python's `lst[-0:]` is `lst[0:]`, the whole list — so
the claim that `recent(kind, 0)` returns no records is false. -/
theorem get_recent_metrics_zero_counterexample :
    MetricsCollector.get_recent_metrics
      (⟨fun _ => [37], fun _ => 0, 0⟩ : MetricsCollector ℕ) "transcriptions" 0 = [37] ∧
    ¬ MetricsCollector.get_recent_metrics
      (⟨fun _ => [37], fun _ => 0, 0⟩ : MetricsCollector ℕ) "transcriptions" 0 = [] := by
  constructor
  · rfl
  · intro h
    simp [MetricsCollector.get_recent_metrics, pySliceLast] at h

/-- C8 (amended): for `limit ≥ 1`, `recent(kind, limit)` returns exactly the
last `min(limit, n)` records of that kind, oldest-to-newest (a suffix of the
stored list, order preserved); for `limit = 0` it returns all records of
that kind (Python's `lst[-0:]` slice), not none. -/
theorem get_recent_metrics_last_min :
    (∀ (M : Type) (mc : MetricsCollector M) (metric_type : String) (limit : ℕ),
       1 ≤ limit →
       mc.get_recent_metrics metric_type limit =
         (mc.metrics metric_type).drop ((mc.metrics metric_type).length - limit) ∧
       (mc.get_recent_metrics metric_type limit).length =
         min limit (mc.metrics metric_type).length ∧
       (mc.get_recent_metrics metric_type limit).IsSuffix (mc.metrics metric_type))
    ∧
    (∀ (M : Type) (mc : MetricsCollector M) (metric_type : String),
       mc.get_recent_metrics metric_type 0 = mc.metrics metric_type) := by
  constructor
  · intro M mc metric_type limit hlim
    have hz : limit ≠ 0 := by omega
    unfold MetricsCollector.get_recent_metrics pySliceLast
    rw [if_neg hz]
    refine ⟨rfl, ?_, List.drop_suffix _ _⟩
    rw [List.length_drop]
    omega
  · intro M mc metric_type
    unfold MetricsCollector.get_recent_metrics pySliceLast
    rw [if_pos rfl]

/-- C8 witness: three stored records, `recent(kind, 2)` returns the last
two, oldest-to-newest; `recent(kind, 0)` returns all three. -/
theorem get_recent_metrics_last_min_witness :
    MetricsCollector.get_recent_metrics
      (⟨fun _ => [10, 20, 30], fun _ => 0, 0⟩ : MetricsCollector ℕ) "requests" 2 =
      ([10, 20, 30].drop ([10, 20, 30].length - 2)) ∧
    (MetricsCollector.get_recent_metrics
      (⟨fun _ => [10, 20, 30], fun _ => 0, 0⟩ : MetricsCollector ℕ) "requests" 2).length =
      min 2 [10, 20, 30].length ∧
    (MetricsCollector.get_recent_metrics
      (⟨fun _ => [10, 20, 30], fun _ => 0, 0⟩ : MetricsCollector ℕ) "requests" 2).IsSuffix
      [10, 20, 30] ∧
    MetricsCollector.get_recent_metrics
      (⟨fun _ => [10, 20, 30], fun _ => 0, 0⟩ : MetricsCollector ℕ) "requests" 0 =
      [10, 20, 30] := by
  have h := get_recent_metrics_last_min
  have h1 := h.1 ℕ (⟨fun _ => [10, 20, 30], fun _ => 0, 0⟩ : MetricsCollector ℕ)
    "requests" 2 (by decide)
  exact ⟨h1.1, h1.2.1, h1.2.2,
         h.2 ℕ (⟨fun _ => [10, 20, 30], fun _ => 0, 0⟩ : MetricsCollector ℕ) "requests"⟩

-- ---------------------------------------------------------------------------
-- backend/omni_modal.py : transcription paths
-- ---------------------------------------------------------------------------

/-- Python's `str.strip()` with no argument: drop leading and trailing
whitespace (modelled over Lean's `Char.isWhitespace` class, which covers the
ASCII whitespace relevant to engine output). -/
def pyStrip (s : String) : String :=
  ⟨((s.data.dropWhile Char.isWhitespace).reverse.dropWhile Char.isWhitespace).reverse⟩

/-- A transcript segment (`omni_modal.Segment`).  The Python field `end` is a
Lean keyword; it is called `stop` here. -/
structure Segment where
  start : ℚ
  stop : ℚ
  text : String
deriving DecidableEq

/-- The result dictionary produced by both transcription paths
(`omni_modal.TranscriptionResponse`). -/
structure TranscriptionResult where
  transcription : String
  language : String
  processing_time : ℚ
  audio_duration : ℚ
  segments_count : ℕ
  segments : List Segment
  request_id : String
deriving DecidableEq

/-- `fastapi.HTTPException(status_code, detail)` raised by the handlers. -/
inductive HError where
  | http (status : ℕ) (detail : String)
deriving DecidableEq

instance {ε α : Type} [DecidableEq ε] [DecidableEq α] : DecidableEq (Except ε α) := fun a b =>
  match a, b with
  | .error e1, .error e2 =>
    if h : e1 = e2 then .isTrue (by rw [h]) else .isFalse (by intro hc; cases hc; exact h rfl)
  | .ok v1, .ok v2 =>
    if h : v1 = v2 then .isTrue (by rw [h]) else .isFalse (by intro hc; cases hc; exact h rfl)
  | .error _, .ok _ => .isFalse (by intro hc; cases hc)
  | .ok _, .error _ => .isFalse (by intro hc; cases hc)

/-- A VAD speech span at the fixed 16 kHz analysis rate
(one element of `get_speech_timestamps(...)`, a dict with integer sample
indices `start`/`end`; `end` is renamed `stop`). -/
structure SpeechSpan where
  start : ℕ
  stop : ℕ
deriving DecidableEq

/-- Per-request trace of the external collaborators, as observed by one
execution of `transcribe` / `transcribe_large` on a fixed uploaded file:
* `duration`: `librosa.get_duration(path=tmp_path)` (error = decode failure);
* `wholeTranscribe`: text and wall-clock seconds of the single
  `pipeline.transcribe([tmp_path], lang=[language])` call;
* `readAudio16k`: `self.read_audio(main_path, sampling_rate=16000)`;
* `vadSpans`: `self.get_speech_timestamps(...)` output;
* `sfRead`: `sf.read(main_path)` = (native-rate samples, native sample rate);
* `chunkTranscribe`: texts and wall-clock seconds of the batched
  `pipeline.transcribe(chunk_paths, lang=[language]*n, batch_size=4)` call. -/
structure Env where
  duration : Except String ℚ
  wholeTranscribe : Except String (String × ℚ)
  readAudio16k : Except String (List ℚ)
  vadSpans : List SpeechSpan
  sfRead : List ℚ × ℚ
  chunkTranscribe : Except String (List String × ℚ)

/-- `OmniASRModel.transcribe` (whole-file path): get the duration (400 on
failure), run the engine once (500 on failure), wrap the text as a single
segment spanning `[0, audio_duration]`. -/
def transcribe (env : Env) (language request_id : String) :
    Except HError TranscriptionResult :=
  match env.duration with
  | .error e => .error (.http 400 ("Invalid audio file: " ++ e))
  | .ok duration =>
    match env.wholeTranscribe with
    | .error e => .error (.http 500 ("Transcription failed: " ++ e))
    | .ok (text, elapsed) =>
      .ok { transcription := text
            language := language
            processing_time := roundTo 3 elapsed
            audio_duration := roundTo 2 duration
            segments_count := 1
            segments := [{ start := 0, stop := roundTo 2 duration, text := text }]
            request_id := request_id }

/-- Native-rate sample index of an analysis-rate bound:
`int(ts_bound * ratio)` with `ratio = samplerate / 16000` (non-negative, so
Python `int()` truncation is `floor`). -/
def nativeBound (samplerate : ℚ) (bound : ℕ) : ℕ :=
  let ratio := samplerate / 16000
  (⌊(bound : ℚ) * ratio⌋).toNat

/-- The per-chunk `{start, end}` metadata: analysis-rate span bounds divided
by the 16 kHz analysis rate, independent of the native rate. -/
def chunkMetadata (spans : List SpeechSpan) : List (ℚ × ℚ) :=
  spans.map (fun ts => (((ts.start : ℚ)) / 16000, ((ts.stop : ℚ)) / 16000))

/-- The native-rate sample slices handed to the engine:
`data[start_sample:end_sample]` with the rescaled bounds. -/
def chunkSlices (data : List ℚ) (samplerate : ℚ) (spans : List SpeechSpan) :
    List (List ℚ) :=
  spans.map (fun ts =>
    (data.drop (nativeBound samplerate ts.start)).take
      (nativeBound samplerate ts.stop - nativeBound samplerate ts.start))

/-- The combine loop of `transcribe_large`: for each returned text (paired
with its chunk metadata, positionally), strip it; if non-empty, append a
segment with rounded timestamps and collect the text part; otherwise drop
the chunk from both lists. -/
def combineLoop : List (String × (ℚ × ℚ)) → List Segment × List String
  | [] => ([], [])
  | (text, m) :: rest =>
    let r := combineLoop rest
    let t := pyStrip text
    if t = "" then r
    else ({ start := roundTo 3 m.1, stop := roundTo 3 m.2, text := t } :: r.1,
          t :: r.2)

/-- `OmniASRModel.transcribe_large` (chunked path): read the audio at the
16 kHz analysis rate (400 on failure), run VAD; with no speech spans fall
back to `transcribe` on the same input; otherwise slice the native-rate
samples per span, batch-transcribe the chunks (500 on failure), drop chunks
whose stripped text is empty, join the rest with single spaces, and report
the full-file duration `len(data)/samplerate`. -/
def transcribe_large (env : Env) (language request_id : String) :
    Except HError TranscriptionResult :=
  match env.readAudio16k with
  | .error e => .error (.http 400 ("Invalid audio file: " ++ e))
  | .ok _wav =>
    if env.vadSpans.isEmpty then
      transcribe env language request_id
    else
      let data := env.sfRead.1
      let samplerate := env.sfRead.2
      let _chunk_paths := chunkSlices data samplerate env.vadSpans
      let chunk_metadata := chunkMetadata env.vadSpans
      match env.chunkTranscribe with
      | .error e => .error (.http 500 ("Transcription failed: " ++ e))
      | .ok (chunk_results, processing_time) =>
        let combined := combineLoop (chunk_results.zip chunk_metadata)
        let full_transcription := String.intercalate " " combined.2
        let total_duration := (data.length : ℚ) / samplerate
        .ok { transcription := full_transcription
              language := language
              processing_time := roundTo 3 processing_time
              audio_duration := roundTo 2 total_duration
              segments_count := combined.1.length
              segments := combined.1
              request_id := request_id }

/-- `MAX_FILE_SIZE = 100 * 1024 * 1024`. -/
def MAX_FILE_SIZE : ℕ := 100 * 1024 * 1024

/-- Outcomes of the request validations that depend on external
collaborators: `magic`-based MIME detection (`validate_file_type`) and
`model.validate_language.remote(language)`. -/
structure RequestChecks where
  typeOk : Bool
  langSupported : Bool

/-- The `/transcribe_large` request handler (`transcribe_large_file`).  The
process-global `TranscriptionCache` of `cache.py` is threaded through as
`cache` to expose its (absent) interaction with the handler: the source
never imports or consults it, so the handler returns it unchanged and
always computes a fresh result. -/
def transcribe_large_file {V : Type} (cache : LRUCache V)
    (checks : RequestChecks) (content : List ℕ) (language request_id : String)
    (env : Env) : Except HError TranscriptionResult × LRUCache V :=
  if MAX_FILE_SIZE < content.length then
    (.error (.http 413 "File too large. Maximum size is 100MB"), cache)
  else if content.length = 0 then
    (.error (.http 400 "Empty file uploaded"), cache)
  else if ¬ checks.typeOk then
    (.error (.http 400 "Invalid file type"), cache)
  else if ¬ checks.langSupported then
    (.error (.http 400 ("Unsupported language: " ++ language)), cache)
  else
    (transcribe_large env language request_id, cache)

-- ---------------------------------------------------------------------------
-- C2: no-speech fallback is exactly the whole-file path
-- ---------------------------------------------------------------------------

/-- C2: whenever the VAD collaborator returns zero speech spans (and the
16 kHz read succeeded so that VAD ran at all), the chunked path returns
exactly the whole-file path's output on the same input — identical
transcription, language, processing_time, audio_duration, segments_count,
segments and request_id — rather than an error. -/
theorem transcribe_large_no_speech_fallback :
    ∀ (env : Env) (language request_id : String) (wav : List ℚ),
      env.readAudio16k = .ok wav → env.vadSpans = [] →
      transcribe_large env language request_id = transcribe env language request_id := by
  intro env language request_id wav hread hspans
  unfold transcribe_large
  rw [hread, hspans]
  rfl

/-- C2 witness: concrete zero-span environment; the chunked entry point
returns the whole-file result. -/
theorem transcribe_large_no_speech_fallback_witness :
    Env.readAudio16k ⟨.ok 5, .ok ("hello world", 1), .ok [], [], ([], 16000), .ok ([], 0)⟩ =
      .ok [] ∧
    transcribe_large ⟨.ok 5, .ok ("hello world", 1), .ok [], [], ([], 16000), .ok ([], 0)⟩
        "eng_Latn" "req-w" =
      transcribe ⟨.ok 5, .ok ("hello world", 1), .ok [], [], ([], 16000), .ok ([], 0)⟩
        "eng_Latn" "req-w" :=
  ⟨rfl, transcribe_large_no_speech_fallback
    ⟨.ok 5, .ok ("hello world", 1), .ok [], [], ([], 16000), .ok ([], 0)⟩
    "eng_Latn" "req-w" [] rfl rfl⟩

-- ---------------------------------------------------------------------------
-- C1: the handler never consults the Transcription Cache
-- ---------------------------------------------------------------------------

/-- Concrete data for the cached-request scenario: the abstract content
hash, the cache key for the request triple, a previously stored result, a
cache holding it, the collaborator environment of the new request, and the
result that request freshly computes. -/
def c1Sha : List ℕ → String := fun _ => "contenthash"

def c1Key : String := generateKey c1Sha [1, 2, 3] "eng_Latn" "large"

def c1Cached : TranscriptionResult :=
  ⟨"cached text", "eng_Latn", 1, 5, 1, [⟨0, 5, "cached text"⟩], "req-0"⟩

def c1Cache : LRUCache TranscriptionResult := ⟨[(c1Key, c1Cached, 0)], 50, 3600, 0, 0⟩

def c1Env : Env := ⟨.ok 5, .ok ("fresh text", 1), .ok [], [], ([], 16000), .ok ([], 0)⟩

def c1Fresh : TranscriptionResult :=
  ⟨"fresh text", "eng_Latn", 1, 5, 1, [⟨0, 5, "fresh text"⟩], "req-1"⟩

/-- C1 counterexample: a fresh (unexpired) result for exactly this
(audio, language, mode) triple sits in the Transcription Cache, yet handling
the request returns a different, freshly computed result and leaves the
cache unchanged (so neither the hit-return nor the miss-store of the claim
happens): the handler never consults the cache. -/
theorem transcribe_large_file_cache_hit_counterexample :
    (LRUCache.get c1Cache c1Key 0).1 = some c1Cached ∧
    transcribe_large_file c1Cache ⟨true, true⟩ [1, 2, 3] "eng_Latn" "req-1" c1Env =
      (.ok c1Fresh, c1Cache) ∧
    c1Fresh ≠ c1Cached := by
  refine ⟨rfl, ?_, ?_⟩
  · simp only [transcribe_large_file, MAX_FILE_SIZE, transcribe_large, transcribe,
      c1Env, c1Fresh]
    norm_num [roundTo, roundHalfEven]
  · intro h
    have hts : c1Fresh.transcription = c1Cached.transcription := by rw [h]
    simp [c1Fresh, c1Cached] at hts

/-- C1 (amended): the `/transcribe_large` handler performs no cache lookup
or store: it returns the cache argument unchanged on every path, and
whenever validation passes its result is exactly the freshly computed
transcription-path output, regardless of what the cache contains. -/
theorem transcribe_large_file_ignores_cache :
    ∀ (V : Type) (cache : LRUCache V) (checks : RequestChecks) (content : List ℕ)
      (language request_id : String) (env : Env),
      (transcribe_large_file cache checks content language request_id env).2 = cache ∧
      (content.length ≤ MAX_FILE_SIZE → content.length ≠ 0 →
        checks.typeOk = true → checks.langSupported = true →
        (transcribe_large_file cache checks content language request_id env).1 =
          transcribe_large env language request_id) := by
  intro V cache checks content language request_id env
  constructor
  · unfold transcribe_large_file
    split
    · rfl
    · split
      · rfl
      · split
        · rfl
        · split
          · rfl
          · rfl
  · intro h1 h2 h3 h4
    unfold transcribe_large_file
    rw [if_neg (by omega), if_neg h2, if_neg (by simp [h3]), if_neg (by simp [h4])]

/-- C1 amended-claim witness: concrete request against a populated cache —
the cache comes back unchanged and the result is the transcription-path
output. -/
theorem transcribe_large_file_ignores_cache_witness :
    (transcribe_large_file c1Cache ⟨true, true⟩ [1, 2, 3] "eng_Latn" "req-1" c1Env).2 =
      c1Cache ∧
    (transcribe_large_file c1Cache ⟨true, true⟩ [1, 2, 3] "eng_Latn" "req-1" c1Env).1 =
      transcribe_large c1Env "eng_Latn" "req-1" := by
  have h := transcribe_large_file_ignores_cache TranscriptionResult c1Cache
    ⟨true, true⟩ [1, 2, 3] "eng_Latn" "req-1" c1Env
  exact ⟨h.1, h.2 (by decide) (by decide) rfl rfl⟩

-- ---------------------------------------------------------------------------
-- Properties of the combine loop
-- ---------------------------------------------------------------------------

theorem combineLoop_fst_eq_filterMap (l : List (String × (ℚ × ℚ))) :
    (combineLoop l).1 = l.filterMap (fun p =>
      if pyStrip p.1 = "" then none
      else some ⟨roundTo 3 p.2.1, roundTo 3 p.2.2, pyStrip p.1⟩) := by
  induction l with
  | nil => rfl
  | cons p rest ih =>
    obtain ⟨text, m⟩ := p
    by_cases ht : pyStrip text = ""
    · simp [combineLoop, List.filterMap_cons, ht, ih]
    · simp [combineLoop, List.filterMap_cons, ht, ih]

theorem combineLoop_snd_eq_filterMap (l : List (String × (ℚ × ℚ))) :
    (combineLoop l).2 = l.filterMap (fun p =>
      if pyStrip p.1 = "" then none else some (pyStrip p.1)) := by
  induction l with
  | nil => rfl
  | cons p rest ih =>
    obtain ⟨text, m⟩ := p
    by_cases ht : pyStrip text = ""
    · simp [combineLoop, List.filterMap_cons, ht, ih]
    · simp [combineLoop, List.filterMap_cons, ht, ih]

theorem combineLoop_snd_eq_map_text (l : List (String × (ℚ × ℚ))) :
    (combineLoop l).2 = (combineLoop l).1.map (·.text) := by
  induction l with
  | nil => rfl
  | cons p rest ih =>
    obtain ⟨text, m⟩ := p
    by_cases ht : pyStrip text = ""
    · simp [combineLoop, ht, ih]
    · simp [combineLoop, ht, ih]

/-- C7: in the chunked path, each engine text is stripped; texts stripping
to empty are dropped from both the transcript and the segment list; retained
chunks keep their own (positionally corresponding) timestamps and relative
order; the retained texts joined with single spaces form the transcription;
and `segments_count` is the number of retained segments.  Including the
scenario: engine output `["hi", "", "bye"]` on three chunks yields two
segments, transcription `"hi bye"`, and the timestamps of chunks 1 and 3. -/
theorem transcribe_large_drops_blank_chunks :
    (∀ (env : Env) (language request_id : String) (wav : List ℚ)
       (texts : List String) (elapsed : ℚ) (r : TranscriptionResult),
       env.readAudio16k = .ok wav →
       env.vadSpans ≠ [] →
       env.chunkTranscribe = .ok (texts, elapsed) →
       transcribe_large env language request_id = .ok r →
       r.segments = (texts.zip (chunkMetadata env.vadSpans)).filterMap (fun p =>
           if pyStrip p.1 = "" then none
           else some ⟨roundTo 3 p.2.1, roundTo 3 p.2.2, pyStrip p.1⟩) ∧
       r.transcription = String.intercalate " "
         ((texts.zip (chunkMetadata env.vadSpans)).filterMap (fun p =>
             if pyStrip p.1 = "" then none else some (pyStrip p.1))) ∧
       r.segments_count = r.segments.length)
    ∧
    transcribe_large
        ⟨.ok 1, .ok ("x", 1), .ok [0],
         [⟨0, 8000⟩, ⟨16000, 24000⟩, ⟨32000, 40000⟩],
         ([0, 0], 2), .ok (["hi", "", "bye"], 1)⟩ "eng_Latn" "req-7" =
      .ok ⟨"hi bye", "eng_Latn", 1, 1, 2,
           [⟨0, 1/2, "hi"⟩, ⟨2, 5/2, "bye"⟩], "req-7"⟩ := by
  constructor
  · intro env language request_id wav texts elapsed r hread hne hchunk hrun
    unfold transcribe_large at hrun
    rw [hread] at hrun
    have hemp : env.vadSpans.isEmpty = false := by
      rcases hv : env.vadSpans with _ | _
      · exact absurd hv hne
      · rfl
    rw [hemp] at hrun
    simp only [Bool.false_eq_true, if_false, hchunk] at hrun
    rw [Except.ok.injEq] at hrun
    subst hrun
    refine ⟨combineLoop_fst_eq_filterMap _, ?_, rfl⟩
    rw [combineLoop_snd_eq_filterMap]
  · have e1 : pyStrip "hi" = "hi" := rfl
    have e2 : pyStrip "" = "" := rfl
    have e3 : pyStrip "bye" = "bye" := rfl
    have n1 : (("hi" : String) = "") = False := eq_false (by decide)
    have n3 : (("bye" : String) = "") = False := eq_false (by decide)
    simp only [transcribe_large, transcribe, combineLoop, chunkMetadata, List.map_cons,
      List.map_nil, List.zip_cons_cons, List.zip_nil_left, List.isEmpty_cons,
      e1, e2, e3, n1, n3, if_false, if_true, eq_self_iff_true]
    norm_num [roundTo, roundHalfEven, String.intercalate, String.intercalate.go]
    decide

/-- C7 witness: the general clause applied to the scenario environment. -/
theorem transcribe_large_drops_blank_chunks_witness :
    (transcribe_large
        ⟨.ok 1, .ok ("x", 1), .ok [0],
         [⟨0, 8000⟩, ⟨16000, 24000⟩, ⟨32000, 40000⟩],
         ([0, 0], 2), .ok (["hi", "", "bye"], 1)⟩ "eng_Latn" "req-7" =
      .ok ⟨"hi bye", "eng_Latn", 1, 1, 2,
           [⟨0, 1/2, "hi"⟩, ⟨2, 5/2, "bye"⟩], "req-7"⟩) ∧
    (⟨"hi bye", "eng_Latn", 1, 1, 2, [⟨0, 1/2, "hi"⟩, ⟨2, 5/2, "bye"⟩],
        "req-7"⟩ : TranscriptionResult).segments =
      ((["hi", "", "bye"].zip
          (chunkMetadata [⟨0, 8000⟩, ⟨16000, 24000⟩, ⟨32000, 40000⟩])).filterMap (fun p =>
        if pyStrip p.1 = "" then none
        else some ⟨roundTo 3 p.2.1, roundTo 3 p.2.2, pyStrip p.1⟩)) ∧
    (⟨"hi bye", "eng_Latn", 1, 1, 2, [⟨0, 1/2, "hi"⟩, ⟨2, 5/2, "bye"⟩],
        "req-7"⟩ : TranscriptionResult).segments_count =
      (⟨"hi bye", "eng_Latn", 1, 1, 2, [⟨0, 1/2, "hi"⟩, ⟨2, 5/2, "bye"⟩],
        "req-7"⟩ : TranscriptionResult).segments.length := by
  have h := transcribe_large_drops_blank_chunks
  have hrun := h.2
  have h1 := h.1
    ⟨.ok 1, .ok ("x", 1), .ok [0],
     [⟨0, 8000⟩, ⟨16000, 24000⟩, ⟨32000, 40000⟩],
     ([0, 0], 2), .ok (["hi", "", "bye"], 1)⟩ "eng_Latn" "req-7" [0]
    ["hi", "", "bye"] 1
    ⟨"hi bye", "eng_Latn", 1, 1, 2, [⟨0, 1/2, "hi"⟩, ⟨2, 5/2, "bye"⟩], "req-7"⟩
    rfl (by simp) rfl hrun
  exact ⟨hrun, h1.1, h1.2.2⟩

theorem combineLoop_timestamps :
    ∀ (texts : List String) (md : List (ℚ × ℚ)),
      texts.length = md.length → (∀ t ∈ texts, pyStrip t ≠ "") →
      (combineLoop (texts.zip md)).1.map (fun s => (s.start, s.stop)) =
        md.map (fun m => (roundTo 3 m.1, roundTo 3 m.2)) := by
  intro texts
  induction texts with
  | nil =>
    intro md hlen _
    have : md = [] := by
      rcases md with _ | _
      · rfl
      · simp at hlen
    subst this
    rfl
  | cons t ts ih =>
    intro md hlen hne
    rcases md with _ | ⟨m, ms⟩
    · simp at hlen
    · have hts : pyStrip t ≠ "" := hne t (List.mem_cons_self t ts)
      simp only [List.zip_cons_cons, combineLoop, if_neg hts, List.map_cons]
      congr 1
      exact ih ms (by simpa using hlen) (fun x hx => hne x (List.mem_cons_of_mem t hx))

/-- C6: the chunk timestamps emitted by the chunked path are the
analysis-rate span bounds divided by the 16 kHz analysis rate — independent
of the native sample rate — while the native-rate slice bounds are
`floor(span_bound * native_rate / 16000)`; in particular, for spans
`(0, 8000)` and `(24000, 40000)` with native rate 44100, the segment
timestamps are `(0, 0.5)` and `(1.5, 2.5)` and the interior native slice
bounds are 22050 and 66150. -/
theorem transcribe_large_rate_independent_timestamps :
    (∀ (env : Env) (language request_id : String) (wav : List ℚ)
       (texts : List String) (elapsed : ℚ) (r : TranscriptionResult),
       env.readAudio16k = .ok wav →
       env.vadSpans ≠ [] →
       env.chunkTranscribe = .ok (texts, elapsed) →
       texts.length = env.vadSpans.length →
       (∀ t ∈ texts, pyStrip t ≠ "") →
       transcribe_large env language request_id = .ok r →
       r.segments.map (fun s => (s.start, s.stop)) =
         env.vadSpans.map (fun ts =>
           (roundTo 3 ((ts.start : ℚ) / 16000), roundTo 3 ((ts.stop : ℚ) / 16000))))
    ∧
    (∀ (samplerate : ℚ) (bound : ℕ),
       nativeBound samplerate bound = (⌊(bound : ℚ) * samplerate / 16000⌋).toNat)
    ∧
    chunkMetadata [⟨0, 8000⟩, ⟨24000, 40000⟩] = [(0, 1/2), (3/2, 5/2)]
    ∧ nativeBound 44100 8000 = 22050
    ∧ nativeBound 44100 24000 = 66150
    ∧ nativeBound 44100 0 = 0
    ∧ nativeBound 44100 40000 = 110250 := by
  refine ⟨?_, ?_, ?_, ?_, ?_, ?_, ?_⟩
  · intro env language request_id wav texts elapsed r hread hne hchunk hlen hnb hrun
    unfold transcribe_large at hrun
    rw [hread] at hrun
    have hemp : env.vadSpans.isEmpty = false := by
      rcases hv : env.vadSpans with _ | _
      · exact absurd hv hne
      · rfl
    rw [hemp] at hrun
    simp only [Bool.false_eq_true, if_false, hchunk] at hrun
    rw [Except.ok.injEq] at hrun
    subst hrun
    show (combineLoop (texts.zip (chunkMetadata env.vadSpans))).1.map
        (fun s => (s.start, s.stop)) = _
    rw [combineLoop_timestamps texts (chunkMetadata env.vadSpans)
      (by rw [hlen]; simp [chunkMetadata]) hnb]
    simp [chunkMetadata, List.map_map, Function.comp]
  · intro samplerate bound
    unfold nativeBound
    rw [mul_div_assoc]
  · norm_num [chunkMetadata]
  · norm_num [nativeBound]
    decide
  · norm_num [nativeBound]
    decide
  · norm_num [nativeBound]
  · norm_num [nativeBound]
    decide

/-- C6 witness: a concrete two-span environment at native rate 44100; the
produced segment timestamps come out in analysis-rate seconds. -/
theorem transcribe_large_rate_independent_timestamps_witness :
    transcribe_large
        ⟨.ok 1, .ok ("x", 1), .ok [0], [⟨0, 8000⟩, ⟨24000, 40000⟩],
         ([], 44100), .ok (["a", "b"], 1)⟩ "eng_Latn" "req-6" =
      .ok ⟨"a b", "eng_Latn", 1, 0, 2,
           [⟨0, 1/2, "a"⟩, ⟨3/2, 5/2, "b"⟩], "req-6"⟩ ∧
    ((⟨"a b", "eng_Latn", 1, 0, 2, [⟨0, 1/2, "a"⟩, ⟨3/2, 5/2, "b"⟩],
        "req-6"⟩ : TranscriptionResult)).segments.map (fun s => (s.start, s.stop)) =
      ([⟨0, 8000⟩, ⟨24000, 40000⟩] : List SpeechSpan).map (fun ts =>
        (roundTo 3 ((ts.start : ℚ) / 16000), roundTo 3 ((ts.stop : ℚ) / 16000))) := by
  have hrun : transcribe_large
      ⟨.ok 1, .ok ("x", 1), .ok [0], [⟨0, 8000⟩, ⟨24000, 40000⟩],
       ([], 44100), .ok (["a", "b"], 1)⟩ "eng_Latn" "req-6" =
      .ok ⟨"a b", "eng_Latn", 1, 0, 2,
           [⟨0, 1/2, "a"⟩, ⟨3/2, 5/2, "b"⟩], "req-6"⟩ := by
    have e1 : pyStrip "a" = "a" := rfl
    have e2 : pyStrip "b" = "b" := rfl
    have n1 : (("a" : String) = "") = False := eq_false (by decide)
    have n2 : (("b" : String) = "") = False := eq_false (by decide)
    simp only [transcribe_large, transcribe, combineLoop, chunkMetadata, List.map_cons,
      List.map_nil, List.zip_cons_cons, List.zip_nil_left, List.isEmpty_cons,
      e1, e2, n1, n2, if_false, if_true, eq_self_iff_true]
    norm_num [roundTo, roundHalfEven, String.intercalate, String.intercalate.go]
    decide
  refine ⟨hrun, ?_⟩
  exact transcribe_large_rate_independent_timestamps.1
    ⟨.ok 1, .ok ("x", 1), .ok [0], [⟨0, 8000⟩, ⟨24000, 40000⟩],
     ([], 44100), .ok (["a", "b"], 1)⟩ "eng_Latn" "req-6" [0] ["a", "b"] 1
    ⟨"a b", "eng_Latn", 1, 0, 2, [⟨0, 1/2, "a"⟩, ⟨3/2, 5/2, "b"⟩], "req-6"⟩
    rfl (by simp) rfl rfl (by decide) hrun

-- ---------------------------------------------------------------------------
-- C5: segment invariants of produced results
-- ---------------------------------------------------------------------------

theorem roundTo3_div16000_lt {s e : ℕ} (h : s + 32 ≤ e) :
    roundTo 3 ((s : ℚ) / 16000) < roundTo 3 ((e : ℚ) / 16000) := by
  unfold roundTo
  have hse : (s : ℚ) + 32 ≤ (e : ℚ) := by exact_mod_cast h
  have hx : ((s : ℚ)) / 16000 * 10 ^ 3 + 2 ≤ ((e : ℚ)) / 16000 * 10 ^ 3 := by linarith
  have hlt := roundHalfEven_lt_of_add_two hx
  have hc : ((roundHalfEven ((s : ℚ) / 16000 * 10 ^ 3) : ℚ)) <
      ((roundHalfEven ((e : ℚ) / 16000 * 10 ^ 3) : ℚ)) := by exact_mod_cast hlt
  have h1000 : (0 : ℚ) < 10 ^ 3 := by norm_num
  show (roundHalfEven ((s : ℚ) / 16000 * 10 ^ 3) : ℚ) / 10 ^ 3 <
    (roundHalfEven ((e : ℚ) / 16000 * 10 ^ 3) : ℚ) / 10 ^ 3
  linarith


theorem pairwise_zip_right {A B : Type} {R : B → B → Prop} :
    ∀ (xs : List A) (ys : List B), ys.Pairwise R →
      (xs.zip ys).Pairwise (fun p q => R p.2 q.2) := by
  intro xs
  induction xs with
  | nil =>
    intro ys _
    simp
  | cons x xs ih =>
    intro ys hys
    rcases ys with _ | ⟨y, ysr⟩
    · simp
    · rw [List.zip_cons_cons, List.pairwise_cons]
      rw [List.pairwise_cons] at hys
      constructor
      · rintro ⟨q1, q2⟩ hq
        exact hys.1 q2 (List.of_mem_zip hq).2
      · exact ih ysr hys.2

theorem pairwise_filterMap_of_pairwise {γ δ : Type} {S : γ → γ → Prop}
    {R : δ → δ → Prop} (f : γ → Option δ)
    (himp : ∀ a b x y, S a b → f a = some x → f b = some y → R x y) :
    ∀ {l : List γ}, l.Pairwise S → (l.filterMap f).Pairwise R := by
  intro l
  induction l with
  | nil =>
    intro _
    simp
  | cons a l ih =>
    intro h
    rw [List.pairwise_cons] at h
    rw [List.filterMap_cons]
    cases hf : f a with
    | none => exact ih h.2
    | some x =>
      rw [List.pairwise_cons]
      constructor
      · intro y hy
        obtain ⟨b, hb, hfb⟩ := List.mem_filterMap.1 hy
        exact himp a b x y (h.1 b hb) hf hfb
      · exact ih h.2

theorem spans_chain_pairwise :
    ∀ {spans : List SpeechSpan},
      (∀ sp ∈ spans, sp.start + 32 ≤ sp.stop) →
      List.Chain' (fun a b : SpeechSpan => a.stop ≤ b.start) spans →
      spans.Pairwise (fun a b => a.start + 32 ≤ b.start) := by
  intro spans
  induction spans with
  | nil =>
    intro _ _
    simp
  | cons a l ih =>
    intro hlen hch
    have hp := ih (fun sp hsp => hlen sp (List.mem_cons_of_mem a hsp)) hch.tail
    rw [List.pairwise_cons]
    refine ⟨?_, hp⟩
    intro b hb
    rcases l with _ | ⟨c, m⟩
    · simp at hb
    · have hac : a.stop ≤ c.start := (List.chain'_cons.1 hch).1
      have ha32 : a.start + 32 ≤ a.stop := hlen a (List.mem_cons_self a _)
      rcases List.mem_cons.1 hb with hbc | hbm
      · subst hbc
        omega
      · have := (List.pairwise_cons.1 hp).1 b hbm
        omega

/-- Whole-file path invariants (shared by the short endpoint and the
no-speech fallback): counting, joining, ordering, and — when the rounded
duration is positive — strict `end > start`. -/
theorem transcribe_props {env : Env} {language request_id : String}
    {r : TranscriptionResult}
    (hrun : transcribe env language request_id = .ok r) :
    r.segments_count = r.segments.length ∧
    r.transcription = String.intercalate " " (r.segments.map (·.text)) ∧
    r.segments.Pairwise (fun a b => a.start < b.start) ∧
    (0 < r.audio_duration → ∀ s ∈ r.segments, s.start < s.stop) := by
  unfold transcribe at hrun
  cases hd : env.duration with
  | error e =>
    rw [hd] at hrun
    simp at hrun
  | ok duration =>
    rw [hd] at hrun
    cases hw : env.wholeTranscribe with
    | error e =>
      rw [hw] at hrun
      simp at hrun
    | ok te =>
      obtain ⟨text, elapsed⟩ := te
      rw [hw, Except.ok.injEq] at hrun
      subst hrun
      refine ⟨rfl, ?_, by simp, ?_⟩
      · show text = String.intercalate " " [text]
        simp [String.intercalate, String.intercalate.go]
      · intro hdur s hs
        rw [List.mem_singleton] at hs
        subst hs
        exact hdur

/-- The collaborator trace of a decodable audio file whose duration is 0
(e.g. a valid container with zero audio frames): the whole-file path wraps
the engine text in the degenerate segment `[0, 0]`. -/
def c5Env : Env := ⟨.ok 0, .ok ("hello", 1), .ok [], [], ([], 16000), .ok ([], 0)⟩

def c5Result : TranscriptionResult :=
  ⟨"hello", "eng_Latn", 1, 0, 1, [⟨0, 0, "hello"⟩], "req-5"⟩

/-- C5 counterexample: for a zero-duration input the whole-file path
produces a result whose single segment has `end = start = 0`, so "every
segment satisfies end > start" fails as stated. -/
theorem transcription_segment_invariant_counterexample :
    transcribe c5Env "eng_Latn" "req-5" = .ok c5Result ∧
    ∃ s ∈ c5Result.segments, ¬ s.start < s.stop := by
  constructor
  · simp only [transcribe, c5Env, c5Result]
    norm_num [roundTo, roundHalfEven]
  · exact ⟨⟨0, 0, "hello"⟩, by simp [c5Result], by norm_num⟩

/-- C5 (amended): for every produced TranscriptionResult,
`segments_count = len(segments)`, the transcription is the space-join of the
segment texts, and the segments are strictly sorted by `start`; moreover
every segment satisfies `end > start` provided the result's (rounded)
`audio_duration` is positive — for zero-duration audio the whole-file path
emits the degenerate segment `{start: 0, end: 0}` — and, on the chunked
path, provided the VAD spans are non-overlapping, in ascending order, and
each at least 32 analysis-rate samples (2 ms) long, which is far below the
250 ms minimum the code requests from the VAD collaborator (needed so that
rounding timestamps to 3 decimals cannot collapse a span). -/
theorem transcription_segment_invariants :
    (∀ (env : Env) (language request_id : String) (r : TranscriptionResult),
       transcribe env language request_id = .ok r →
       r.segments_count = r.segments.length ∧
       r.transcription = String.intercalate " " (r.segments.map (·.text)) ∧
       r.segments.Pairwise (fun a b => a.start < b.start) ∧
       (0 < r.audio_duration → ∀ s ∈ r.segments, s.start < s.stop))
    ∧
    (∀ (env : Env) (language request_id : String) (r : TranscriptionResult),
       (∀ sp ∈ env.vadSpans, sp.start + 32 ≤ sp.stop) →
       List.Chain' (fun a b : SpeechSpan => a.stop ≤ b.start) env.vadSpans →
       0 < r.audio_duration →
       transcribe_large env language request_id = .ok r →
       r.segments_count = r.segments.length ∧
       r.transcription = String.intercalate " " (r.segments.map (·.text)) ∧
       r.segments.Pairwise (fun a b => a.start < b.start) ∧
       ∀ s ∈ r.segments, s.start < s.stop) := by
  constructor
  · intro env language request_id r hrun
    exact transcribe_props hrun
  · intro env language request_id r hspan hchain hdur hrun
    unfold transcribe_large at hrun
    cases hread : env.readAudio16k with
    | error e =>
      rw [hread] at hrun
      simp at hrun
    | ok wav =>
      rw [hread] at hrun
      by_cases hemp : env.vadSpans.isEmpty
      · rw [if_pos hemp] at hrun
        have h := transcribe_props hrun
        exact ⟨h.1, h.2.1, h.2.2.1, h.2.2.2 hdur⟩
      · rw [if_neg hemp] at hrun
        cases hchunk : env.chunkTranscribe with
        | error e =>
          rw [hchunk] at hrun
          simp at hrun
        | ok te =>
          obtain ⟨texts, elapsed⟩ := te
          rw [hchunk, Except.ok.injEq] at hrun
          subst hrun
          have hsp2 : env.vadSpans.Pairwise (fun a b => a.start + 32 ≤ b.start) :=
            spans_chain_pairwise hspan hchain
          have hmd : (chunkMetadata env.vadSpans).Pairwise
              (fun m1 m2 => roundTo 3 m1.1 < roundTo 3 m2.1) := by
            unfold chunkMetadata
            rw [List.pairwise_map]
            exact hsp2.imp (fun hab => roundTo3_div16000_lt hab)
          have hzip := pairwise_zip_right texts (chunkMetadata env.vadSpans) hmd
          refine ⟨rfl, ?_, ?_, ?_⟩
          · show String.intercalate " " (combineLoop _).2 =
              String.intercalate " " ((combineLoop _).1.map (·.text))
            rw [combineLoop_snd_eq_map_text]
          · show ((combineLoop (texts.zip (chunkMetadata env.vadSpans))).1).Pairwise _
            rw [combineLoop_fst_eq_filterMap]
            refine pairwise_filterMap_of_pairwise _ ?_ hzip
            intro a b x y hS hfa hfb
            by_cases ha : pyStrip a.1 = ""
            · rw [if_pos ha] at hfa
              cases hfa
            · by_cases hb : pyStrip b.1 = ""
              · rw [if_pos hb] at hfb
                cases hfb
              · rw [if_neg ha, Option.some.injEq] at hfa
                rw [if_neg hb, Option.some.injEq] at hfb
                rw [← hfa, ← hfb]
                exact hS
          · intro s hs
            show s.start < s.stop
            rw [show (combineLoop (texts.zip (chunkMetadata env.vadSpans))).1 =
                _ from combineLoop_fst_eq_filterMap _] at hs
            obtain ⟨p, hp, hfp⟩ := List.mem_filterMap.1 hs
            by_cases hps : pyStrip p.1 = ""
            · rw [if_pos hps] at hfp
              cases hfp
            · rw [if_neg hps, Option.some.injEq] at hfp
              have hm : p.2 ∈ chunkMetadata env.vadSpans := (List.of_mem_zip hp).2
              unfold chunkMetadata at hm
              obtain ⟨sp, hsp, hg⟩ := List.mem_map.1 hm
              have h32 := hspan sp hsp
              rw [← hfp, ← hg]
              exact roundTo3_div16000_lt h32

/-- C5 witness: both clauses applied to concrete runs — a 5-second
whole-file result and a two-chunk chunked result. -/
theorem transcription_segment_invariants_witness :
    ((⟨"hello world", "eng_Latn", 2, 5, 1, [⟨0, 5, "hello world"⟩], "rw5"⟩ :
        TranscriptionResult).segments.Pairwise (fun a b => a.start < b.start) ∧
     ∀ s ∈ (⟨"hello world", "eng_Latn", 2, 5, 1, [⟨0, 5, "hello world"⟩], "rw5"⟩ :
        TranscriptionResult).segments, s.start < s.stop) ∧
    ((⟨"hi bye", "eng_Latn", 1, 1, 2, [⟨0, 1/2, "hi"⟩, ⟨1, 3/2, "bye"⟩], "rw6"⟩ :
        TranscriptionResult).transcription = String.intercalate " "
          ((⟨"hi bye", "eng_Latn", 1, 1, 2, [⟨0, 1/2, "hi"⟩, ⟨1, 3/2, "bye"⟩], "rw6"⟩ :
            TranscriptionResult).segments.map (·.text)) ∧
     (⟨"hi bye", "eng_Latn", 1, 1, 2, [⟨0, 1/2, "hi"⟩, ⟨1, 3/2, "bye"⟩], "rw6"⟩ :
        TranscriptionResult).segments.Pairwise (fun a b => a.start < b.start) ∧
     ∀ s ∈ (⟨"hi bye", "eng_Latn", 1, 1, 2, [⟨0, 1/2, "hi"⟩, ⟨1, 3/2, "bye"⟩], "rw6"⟩ :
        TranscriptionResult).segments, s.start < s.stop) := by
  constructor
  · have hrun : transcribe
        ⟨.ok 5, .ok ("hello world", 2), .ok [], [], ([], 16000), .ok ([], 0)⟩
        "eng_Latn" "rw5" =
        .ok ⟨"hello world", "eng_Latn", 2, 5, 1, [⟨0, 5, "hello world"⟩], "rw5"⟩ := by
      simp only [transcribe]
      norm_num [roundTo, roundHalfEven]
    have h := transcription_segment_invariants.1
      ⟨.ok 5, .ok ("hello world", 2), .ok [], [], ([], 16000), .ok ([], 0)⟩
      "eng_Latn" "rw5"
      ⟨"hello world", "eng_Latn", 2, 5, 1, [⟨0, 5, "hello world"⟩], "rw5"⟩ hrun
    exact ⟨h.2.2.1, h.2.2.2 (by norm_num)⟩
  · have hrun : transcribe_large
        ⟨.ok 1, .ok ("x", 1), .ok [0], [⟨0, 8000⟩, ⟨16000, 24000⟩],
         ([0, 0], 2), .ok (["hi", "bye"], 1)⟩ "eng_Latn" "rw6" =
        .ok ⟨"hi bye", "eng_Latn", 1, 1, 2,
             [⟨0, 1/2, "hi"⟩, ⟨1, 3/2, "bye"⟩], "rw6"⟩ := by
      have e1 : pyStrip "hi" = "hi" := rfl
      have e3 : pyStrip "bye" = "bye" := rfl
      have n1 : (("hi" : String) = "") = False := eq_false (by decide)
      have n3 : (("bye" : String) = "") = False := eq_false (by decide)
      simp only [transcribe_large, transcribe, combineLoop, chunkMetadata, List.map_cons,
        List.map_nil, List.zip_cons_cons, List.zip_nil_left, List.isEmpty_cons,
        e1, e3, n1, n3, if_false, if_true, eq_self_iff_true]
      norm_num [roundTo, roundHalfEven, String.intercalate, String.intercalate.go]
      decide
    have h := transcription_segment_invariants.2
      ⟨.ok 1, .ok ("x", 1), .ok [0], [⟨0, 8000⟩, ⟨16000, 24000⟩],
       ([0, 0], 2), .ok (["hi", "bye"], 1)⟩ "eng_Latn" "rw6"
      ⟨"hi bye", "eng_Latn", 1, 1, 2, [⟨0, 1/2, "hi"⟩, ⟨1, 3/2, "bye"⟩], "rw6"⟩
      (by decide)
      (List.chain'_cons.2 ⟨by norm_num, List.chain'_singleton _⟩)
      (by norm_num) hrun
    exact ⟨h.2.1, h.2.2.1, h.2.2.2⟩
